import Mathlib

set_option maxHeartbeats 1000000
set_option maxRecDepth 100000

/-!
Verification of the stencil/hole extraction core of stenciltool (src/main.rs).

The development shallowly embeds the core pipeline of the program: symbol
classification into stencils and holes (read_elf's symbol loop), relocation
mapping (read_elf's relocation loop), trailing-jump elision
(trim_trailing_jmp) and per-stencil hole-list population
(populate_stencil_holes).  ELF container parsing (the goblin crate), the
location of the .text section and of its relocation section are external to
the modelled core: the embedding starts from the already-located data that
read_elf's loops consume (the file bytes, the .text file offset, the symbol
table with its string table, and the relocation records of the section
following .text).

Machine integers are modelled as Nat with explicit wrap-around at 2^64 where
the program performs u64/usize arithmetic.  Fallible steps return a RunResult
that distinguishes a reported error (Rust Result::Err) from a process abort
(Rust panic via unwrap/expect/slice indexing).
-/

/-- The modulus 2^64 of the 64-bit machine integers (u64 and usize on the
x86-64 target) used by the program. -/
def U64 : Nat := 18446744073709551616

/-- Wrapping 64-bit addition, as performed on u64/usize values in release
builds (operands assumed below 2^64). -/
def wadd (a b : Nat) : Nat := (a + b) % U64

/-- Wrapping 64-bit subtraction, as performed on u64/usize values in release
builds (operands assumed below 2^64). -/
def wsub64 (a b : Nat) : Nat := (U64 + a - b) % U64

/-- Rust slice indexing data[a..b]: yields the bytes of positions a..b when
a ≤ b ≤ data.length; otherwise the program panics (modelled as none). -/
def sliceGet (l : List Nat) (a b : Nat) : Option (List Nat) :=
  if a ≤ b ∧ b ≤ l.length then some ((l.drop a).take (b - a)) else none

/-- A named patch point: struct Hole of src/main.rs.  The Rust code stores
references to registry entries; here a Hole is carried by value and its
identity is its symbol-table index, exactly as the program compares holes. -/
structure Hole where
  name : String
  index : Nat
  datatype : String
  internal : Bool
deriving DecidableEq

/-- One patch site inside a stencil: struct Reloc of src/main.rs. -/
structure Reloc where
  offset : Nat
  addend : Int
  hole : Hole
  relocation : String
deriving DecidableEq

/-- One extractable code fragment: struct Stencil of src/main.rs. -/
structure Stencil where
  name : String
  address : Nat
  size : Nat
  code : List Nat
  relocs : List Reloc
  holes : List Hole
deriving DecidableEq

/-- Outcome of a fallible piece of the program: a normal value, a reported
error (Rust Result::Err, propagated by the question-mark operator), or a
process abort (Rust panic via unwrap, expect or out-of-range slice
indexing). -/
inductive RunResult (α : Type) where
  | ok (val : α)
  | err (msg : String)
  | panicked (msg : String)
deriving DecidableEq

/-- True exactly on the reported-error outcome. -/
def RunResult.isErr {α : Type} : RunResult α → Bool
  | .err _ => true
  | _ => false

/-- ELF symbol-binding constant STB_GLOBAL. -/
def STB_GLOBAL : Nat := 1

/-- ELF symbol-type constant STT_FUNC. -/
def STT_FUNC : Nat := 2

/-- The fields of one ELF symbol-table entry that read_elf consumes. -/
structure ElfSym where
  st_bind : Nat
  st_type : Nat
  st_name : Nat
  st_value : Nat
  st_size : Nat
deriving DecidableEq

/-- The fields of one ELF relocation record that read_elf consumes. -/
structure RelocRecord where
  r_offset : Nat
  r_sym : Nat
  r_type : Nat
  r_addend : Option Int
deriving DecidableEq

/-- The input of the modelled core of read_elf: the raw file bytes, the
string-table lookup, the file offset of the .text section, the symbol table
in table order, and the relocation records of the section relocating
.text. -/
structure ElfInput where
  data : List Nat
  strtab : Nat → Option String
  text_offset : Nat
  syms : List ElfSym
  relocRecords : List RelocRecord

/-- Rust str::starts_with on strings, modelled as a prefix test on the
character lists of the two strings. -/
def strStartsWith (s p : String) : Bool :=
  p.data.isPrefixOf s.data

/-- The datatype_opt match of read_elf (src/main.rs lines 50-57): the ordered
first-match classification of a hole name. -/
def datatype_opt (name : String) : Option String :=
  if strStartsWith name "cnp_large_value_hole" then some "uint64_t"
  else if strStartsWith name "cnp_small_value_hole" then some "uint32_t"
  else if strStartsWith name "cnp_near_func_hole" then some "uint32_t"
  else if strStartsWith name "cnp_far_fun_hole" then some "void*"
  else if name = "cnp_stencil_output" then some "uint32_t"
  else none

/-- The Hole pushed by read_elf for a non-function symbol with the given
resolved name and symbol-table index (src/main.rs lines 58-72). -/
def mkHole (name : String) (index : Nat) : Hole :=
  match datatype_opt name with
  | some dt => { name := name, index := index, datatype := dt, internal := true }
  | none => { name := name, index := index, datatype := "void*", internal := false }

/-- goblin's elf::reloc::r_to_str restricted to EM_X86_64 and the relocation
kinds relevant here; the tag is opaque descriptive data for the core. -/
def r_to_str (t : Nat) : String :=
  if t = 1 then "R_X86_64_64"
  else if t = 2 then "R_X86_64_PC32"
  else if t = 4 then "R_X86_64_PLT32"
  else "R_X86_64_UNKNOWN"

/-- One iteration of read_elf's symbol loop (src/main.rs lines 46-86) on the
symbol with the given enumeration index, threading the (stencils, holes)
accumulator.  A symbol that is not both globally bound and of function type
becomes a Hole; otherwise a Stencil is extracted from the file bytes, where
out-of-range slicing is a panic. -/
def processSym (data : List Nat) (strtab : Nat → Option String) (text_offset : Nat)
    (index : Nat) (sym : ElfSym) (acc : List Stencil × List Hole) :
    RunResult (List Stencil × List Hole) :=
  if sym.st_bind ≠ STB_GLOBAL ∨ sym.st_type ≠ STT_FUNC then
    match strtab sym.st_name with
    | none => .err "symbol missing in strtab"
    | some name => .ok (acc.1, acc.2 ++ [mkHole name index])
  else
    match strtab sym.st_name with
    | none => .err "symbol missing in strtab"
    | some name =>
      let start := wadd text_offset sym.st_value
      match sliceGet data start (wadd start sym.st_size) with
      | none => .panicked "slice out of range"
      | some code =>
        .ok (acc.1 ++ [{ name := name, address := sym.st_value, size := sym.st_size,
                         code := code, relocs := [], holes := [] }], acc.2)

/-- read_elf's symbol loop over the whole symbol table, enumerating indices
from the given starting index. -/
def processSyms (data : List Nat) (strtab : Nat → Option String) (text_offset : Nat) :
    Nat → List Stencil × List Hole → List ElfSym → RunResult (List Stencil × List Hole)
  | _, acc, [] => .ok acc
  | index, acc, sym :: rest =>
    match processSym data strtab text_offset index sym acc with
    | .ok acc2 => processSyms data strtab text_offset (index + 1) acc2 rest
    | .err m => .err m
    | .panicked m => .panicked m

/-- The containment test (s.address..s.address+s.size).contains(r_offset) of
src/main.rs line 92, with the u64 addition performed by the program. -/
def containsOff (s : Stencil) (off : Nat) : Bool :=
  decide (s.address ≤ off ∧ off < wadd s.address s.size)

/-- One iteration of read_elf's relocation loop (src/main.rs lines 91-100):
the record is appended to the first stencil whose address range contains its
target offset; a record contained in no stencil is skipped (the if-let has no
else branch); the hole lookup is an unwrap, so its failure is a panic. -/
def pushReloc (holes : List Hole) (rr : RelocRecord) : List Stencil → RunResult (List Stencil)
  | [] => .ok []
  | s :: rest =>
    if containsOff s rr.r_offset then
      match holes.find? (fun h => h.index == rr.r_sym) with
      | none => .panicked "unwrap on None"
      | some hole =>
        .ok ({ s with relocs := s.relocs ++
                 [{ offset := wsub64 rr.r_offset s.address, addend := rr.r_addend.getD 0,
                    hole := hole, relocation := r_to_str rr.r_type }] } :: rest)
    else
      match pushReloc holes rr rest with
      | .ok rest2 => .ok (s :: rest2)
      | .err m => .err m
      | .panicked m => .panicked m

/-- read_elf's relocation loop over all relocation records. -/
def processRelocs (holes : List Hole) : List Stencil → List RelocRecord → RunResult (List Stencil)
  | ss, [] => .ok ss
  | ss, rr :: rest =>
    match pushReloc holes rr ss with
    | .ok ss2 => processRelocs holes ss2 rest
    | .err m => .err m
    | .panicked m => .panicked m

/-- The modelled core of read_elf (src/main.rs lines 34-103): the symbol loop
followed by the relocation loop, returning the final stencil and hole
lists. -/
def read_elf (inp : ElfInput) : RunResult (List Stencil × List Hole) :=
  match processSyms inp.data inp.strtab inp.text_offset 0 ([], []) inp.syms with
  | .ok (ss, hs) =>
    match processRelocs hs ss inp.relocRecords with
    | .ok ss2 => .ok (ss2, hs)
    | .err m => .err m
    | .panicked m => .panicked m
  | .err m => .err m
  | .panicked m => .panicked m

/-- trim_trailing_jmp's body for one stencil (src/main.rs lines 108-117).
The codelen used for the final-five-bytes check is the stencil's size field,
and slicing outside the code is a panic (modelled as none). -/
def trimStencil (s : Stencil) : Option Stencil :=
  match s.relocs.getLast? with
  | none => some s
  | some lastreloc =>
    if lastreloc.offset = wsub64 s.size 4 ∧ lastreloc.hole.name = "cnp_stencil_output" then
      match sliceGet s.code (wsub64 s.size 5) s.size with
      | none => none
      | some bytes =>
        if bytes = [0xe9, 0, 0, 0, 0] then
          some { s with code := s.code.take (wsub64 s.size 5), relocs := s.relocs.dropLast }
        else some s
    else some s

/-- trim_trailing_jmp (src/main.rs lines 106-119) over the stencil list; a
panic in any iteration aborts the whole run. -/
def trim_trailing_jmp : List Stencil → Option (List Stencil)
  | [] => some []
  | s :: rest =>
    match trimStencil s with
    | none => none
    | some s2 =>
      match trim_trailing_jmp rest with
      | none => none
      | some rest2 => some (s2 :: rest2)

/-- The inner loop of populate_stencil_holes (src/main.rs lines 124-129):
scan the relocs in order and append each reloc's hole whose index is not yet
present in the accumulated hole list. -/
def addHoles (hs : List Hole) : List Reloc → List Hole
  | [] => hs
  | r :: rs =>
    if (hs.find? (fun h => h.index == r.hole.index)).isNone then
      addHoles (hs ++ [r.hole]) rs
    else
      addHoles hs rs

/-- populate_stencil_holes's effect on one stencil. -/
def populateStencil (s : Stencil) : Stencil :=
  { s with holes := addHoles s.holes s.relocs }

/-- populate_stencil_holes (src/main.rs lines 121-131) over the stencil
list. -/
def populate_stencil_holes (ss : List Stencil) : List Stencil :=
  ss.map populateStencil

/-- Stated from the claim for comparison with the code: scan a list of hole
indices in order, keeping each index the first time it occurs and skipping
any index already kept, so the result lists the distinct indices in
first-occurrence order. -/
def dedupAvoid (seen : List Nat) : List Nat → List Nat
  | [] => []
  | i :: rest =>
    if (seen.find? (fun j => j == i)).isNone then i :: dedupAvoid (seen ++ [i]) rest
    else dedupAvoid seen rest

/-- Stated from the claim: the distinct members of a list of hole indices in
first-occurrence order. -/
def dedupFirstOcc (l : List Nat) : List Nat := dedupAvoid [] l

/-- Stated from the claim: the firing condition of trailing-jump elision -
the last relocation sits at offset size - 4, references the hole named
cnp_stencil_output, and the last five code bytes are the near-jump pattern
E9 00 00 00 00. -/
def trimCond (s : Stencil) : Prop :=
  ∃ lr, s.relocs.getLast? = some lr ∧ lr.offset = s.size - 4 ∧
    lr.hole.name = "cnp_stencil_output" ∧ s.code.drop (s.size - 5) = [0xe9, 0, 0, 0, 0]

/-- Stated from the claim: the stencil with the final five code bytes and the
last relocation removed, all other fields unchanged. -/
def trimmedOf (s : Stencil) : Stencil :=
  { s with code := s.code.take (s.size - 5), relocs := s.relocs.dropLast }

/-! Concrete inputs used by the counterexamples and witnesses below. -/

/-- A string table resolving offset 0 to the name foo. -/
def strtabFoo : Nat → Option String := fun n => if n = 0 then some "foo" else none

/-- A globally bound function symbol named foo at value 0 with size 4. -/
def symFoo : ElfSym := ⟨1, 2, 0, 0, 4⟩

/-- The stencil read_elf extracts for symFoo from the bytes 10 11 12 13. -/
def stFoo : Stencil := ⟨"foo", 0, 4, [10, 11, 12, 13], [], []⟩

/-- Input whose single relocation record targets offset 100, outside the only
stencil's range, which is 0 to 4. -/
def exC1 : ElfInput := ⟨[10, 11, 12, 13], strtabFoo, 0, [symFoo], [⟨100, 0, 2, none⟩]⟩

/-- Input whose single relocation record is contained in the only stencil but
references symbol-table index 5, for which no hole is registered. -/
def exC7 : ElfInput := ⟨[10, 11, 12, 13], strtabFoo, 0, [symFoo], [⟨0, 5, 2, some 1⟩]⟩

/-- Input whose single function symbol has value 2 and size 4 inside a 4-byte
buffer, so its code range 2 to 6 exceeds the buffer. -/
def exC8 : ElfInput := ⟨[10, 11, 12, 13], strtabFoo, 0, [⟨1, 2, 0, 2, 4⟩], []⟩

/-- The stencil-output sentinel hole at symbol-table index 9. -/
def hOut : Hole := ⟨"cnp_stencil_output", 9, "uint32_t", true⟩

/-- A relocation at stencil-relative offset 5 referencing the sentinel. -/
def rOut : Reloc := ⟨5, 0, hOut, "R_X86_64_PLT32"⟩

/-- A stencil of size 9 ending in the jump pattern whose last two relocations
both sit at offset 5 = size - 4 and reference the sentinel hole. -/
def sC9 : Stencil := ⟨"f", 0, 9, [0, 0, 0, 0, 0xe9, 0, 0, 0, 0], [rOut, rOut], []⟩

/-- sC9 after one application of trailing-jump elision. -/
def sC9a : Stencil := ⟨"f", 0, 9, [0, 0, 0, 0], [rOut], []⟩

/-- A well-formed stencil of size 5 whose whole code is the jump pattern and
whose single relocation sits at offset 1 = size - 4 naming the sentinel. -/
def exS4 : Stencil := ⟨"h4", 3, 5, [0xe9, 0, 0, 0, 0], [⟨1, 2, hOut, "R_X86_64_PC32"⟩], []⟩

/-- exS4 after trailing-jump elision. -/
def exS4t : Stencil := ⟨"h4", 3, 5, [], [], []⟩

/-- A firing stencil with nonempty name, address, holes, used to observe the
frame effect of the trim. -/
def sC10 : Stencil := ⟨"g", 7, 9, [1, 2, 3, 4, 0xe9, 0, 0, 0, 0], [rOut], [hOut]⟩

/-- An external hole at index 3. -/
def hA : Hole := ⟨"a", 3, "void*", false⟩

/-- An external hole at index 7. -/
def hB : Hole := ⟨"b", 7, "void*", false⟩

/-- A stencil whose relocs reference hole indices 7, 3, 7 in that order. -/
def sC5 : Stencil := ⟨"k", 0, 0, [], [⟨0, 0, hB, "T"⟩, ⟨1, 0, hA, "T"⟩, ⟨2, 0, hB, "T"⟩], []⟩

/-- A relocation record at target offset 5 referencing symbol index 7 with
explicit addend -4. -/
def rrW6 : RelocRecord := ⟨5, 7, 2, some (-4)⟩

/-- An empty stencil of size 8 at address 0. -/
def stW6 : Stencil := ⟨"foo", 0, 8, [0, 0, 0, 0, 0, 0, 0, 0], [], []⟩

/-- A globally bound non-function symbol (type 1 is STT_OBJECT). -/
def symW2 : ElfSym := ⟨1, 1, 0, 0, 0⟩

/-- A globally bound function symbol at value 1 with size 2. -/
def symW3 : ElfSym := ⟨1, 2, 0, 1, 2⟩

/-- The relocation record of exC1: target offset 100, symbol index 0. -/
def rrC1 : RelocRecord := ⟨100, 0, 2, none⟩

/-- The relocation record of exC7: target offset 0, symbol index 5. -/
def rrC7 : RelocRecord := ⟨0, 5, 2, some 1⟩

/-- The function symbol of exC8: value 2, size 4. -/
def symC8 : ElfSym := ⟨1, 2, 0, 2, 4⟩

/-- Stated from the claim: the relocation record rr is attached to exactly one
stencil - the first one, at position i, whose address range contains the
target offset - as a Reloc whose offset is the target offset minus that
stencil's address (a value below the stencil's size), whose addend is the
record's explicit addend or 0, and whose hole is the resolved one; every
other stencil is left unchanged. -/
def relocAttachedSpec (holes : List Hole) (rr : RelocRecord) (ss : List Stencil)
    (hole : Hole) : Prop :=
  ∃ i s, ss[i]? = some s ∧ containsOff s rr.r_offset = true ∧
    (∀ j t, j < i → ss[j]? = some t → containsOff t rr.r_offset = false) ∧
    pushReloc holes rr ss =
      .ok (ss.set i { s with relocs := s.relocs ++
        [{ offset := rr.r_offset - s.address, addend := rr.r_addend.getD 0,
           hole := hole, relocation := r_to_str rr.r_type }] }) ∧
    rr.r_offset - s.address < s.size ∧
    (∀ j, j ≠ i →
      (ss.set i { s with relocs := s.relocs ++
        [{ offset := rr.r_offset - s.address, addend := rr.r_addend.getD 0,
           hole := hole, relocation := r_to_str rr.r_type }] })[j]? = ss[j]?)

/-! Helper lemmas. -/

theorem wadd_eq {a b : Nat} (h : a + b < U64) : wadd a b = a + b := by
  unfold wadd U64 at *
  omega

theorem wsub64_eq {a b : Nat} (hba : b ≤ a) (ha : a < U64) : wsub64 a b = a - b := by
  unfold wsub64 U64 at *
  omega

theorem find?_isNone_not_any (p : α → Bool) :
    ∀ l : List α, (l.find? p).isNone = !l.any p := by
  intro l
  induction l with
  | nil => rfl
  | cons a t ih =>
    rw [List.find?_cons, List.any_cons]
    cases h : p a
    · simpa using ih
    · simp

/-! Claim C2: classification of non-function symbols. -/

/-- Claim C2: every symbol-table entry that is not both globally bound and of
function type whose name resolves produces exactly one appended Hole, and that
Hole's datatype and internal flag follow the six ordered first-match rules of
the naming convention: the large-value prefix gives the 8-byte integer
datatype uint64_t with internal true; the small-value and near-function
prefixes give the 4-byte integer datatype uint32_t with internal true; the
far-function prefix gives the pointer datatype with internal true; the exact
sentinel name cnp_stencil_output gives uint32_t with internal true; any other
name gives the pointer datatype with internal false. -/
theorem c2_hole_classification (data : List Nat) (strtab : Nat → Option String)
    (text_offset i : Nat) (sym : ElfSym) (ss : List Stencil) (hs : List Hole) (nm : String)
    (hnf : sym.st_bind ≠ STB_GLOBAL ∨ sym.st_type ≠ STT_FUNC)
    (hn : strtab sym.st_name = some nm) :
    processSym data strtab text_offset i sym (ss, hs) = .ok (ss, hs ++ [mkHole nm i]) ∧
    (strStartsWith nm "cnp_large_value_hole" = true →
      mkHole nm i = ⟨nm, i, "uint64_t", true⟩) ∧
    (strStartsWith nm "cnp_large_value_hole" = false →
      strStartsWith nm "cnp_small_value_hole" = true →
      mkHole nm i = ⟨nm, i, "uint32_t", true⟩) ∧
    (strStartsWith nm "cnp_large_value_hole" = false →
      strStartsWith nm "cnp_small_value_hole" = false →
      strStartsWith nm "cnp_near_func_hole" = true →
      mkHole nm i = ⟨nm, i, "uint32_t", true⟩) ∧
    (strStartsWith nm "cnp_large_value_hole" = false →
      strStartsWith nm "cnp_small_value_hole" = false →
      strStartsWith nm "cnp_near_func_hole" = false →
      strStartsWith nm "cnp_far_fun_hole" = true →
      mkHole nm i = ⟨nm, i, "void*", true⟩) ∧
    (strStartsWith nm "cnp_large_value_hole" = false →
      strStartsWith nm "cnp_small_value_hole" = false →
      strStartsWith nm "cnp_near_func_hole" = false →
      strStartsWith nm "cnp_far_fun_hole" = false →
      nm = "cnp_stencil_output" →
      mkHole nm i = ⟨nm, i, "uint32_t", true⟩) ∧
    (strStartsWith nm "cnp_large_value_hole" = false →
      strStartsWith nm "cnp_small_value_hole" = false →
      strStartsWith nm "cnp_near_func_hole" = false →
      strStartsWith nm "cnp_far_fun_hole" = false →
      nm ≠ "cnp_stencil_output" →
      mkHole nm i = ⟨nm, i, "void*", false⟩) := by
  refine ⟨?_, ?_, ?_, ?_, ?_, ?_, ?_⟩
  · simp only [processSym, if_pos hnf, hn]
  · intro h1
    simp [mkHole, datatype_opt, h1]
  · intro h1 h2
    simp [mkHole, datatype_opt, h1, h2]
  · intro h1 h2 h3
    simp [mkHole, datatype_opt, h1, h2, h3]
  · intro h1 h2 h3 h4
    simp [mkHole, datatype_opt, h1, h2, h3, h4]
  · intro h1 h2 h3 h4 h5
    subst h5
    have hdt : datatype_opt "cnp_stencil_output" = some "uint32_t" := by decide
    simp [mkHole, hdt]
  · intro h1 h2 h3 h4 h5
    simp [mkHole, datatype_opt, h1, h2, h3, h4, h5]

/-- Witness for C2 at a concrete global non-function symbol named foo. -/
theorem c2_hole_classification_witness :
    (symW2.st_bind ≠ STB_GLOBAL ∨ symW2.st_type ≠ STT_FUNC) ∧
    strtabFoo symW2.st_name = some "foo" ∧
    processSym [] strtabFoo 0 0 symW2 ([], []) = .ok ([], [mkHole "foo" 0]) :=
  ⟨by decide, rfl,
    (c2_hole_classification [] strtabFoo 0 0 symW2 [] [] "foo" (by decide) rfl).1⟩

/-! Claim C3: stencil extraction. -/

/-- Claim C3: for a globally bound function symbol of value v and size s whose
name resolves, with the code section at file offset o and the byte range
inside the buffer, read_elf's symbol step appends exactly one stencil whose
address field is v, whose size field is s, and whose code is exactly the byte
range from o + v to o + v + s of the input buffer. -/
theorem c3_stencil_extraction (data : List Nat) (strtab : Nat → Option String)
    (text_offset i : Nat) (sym : ElfSym) (ss : List Stencil) (hs : List Hole) (nm : String)
    (hb : sym.st_bind = STB_GLOBAL) (ht : sym.st_type = STT_FUNC)
    (hn : strtab sym.st_name = some nm)
    (hlen : text_offset + sym.st_value + sym.st_size ≤ data.length)
    (h64 : text_offset + sym.st_value + sym.st_size < U64) :
    processSym data strtab text_offset i sym (ss, hs) =
      .ok (ss ++ [{ name := nm, address := sym.st_value, size := sym.st_size,
                    code := (data.drop (text_offset + sym.st_value)).take sym.st_size,
                    relocs := [], holes := [] }], hs) ∧
    ((data.drop (text_offset + sym.st_value)).take sym.st_size).length = sym.st_size ∧
    (∀ k, k < sym.st_size →
      ((data.drop (text_offset + sym.st_value)).take sym.st_size)[k]? =
        data[text_offset + sym.st_value + k]?) := by
  have hnf : ¬(sym.st_bind ≠ STB_GLOBAL ∨ sym.st_type ≠ STT_FUNC) := by
    simp [hb, ht]
  have hwa1 : wadd text_offset sym.st_value = text_offset + sym.st_value :=
    wadd_eq (by omega)
  have hwa2 : wadd (text_offset + sym.st_value) sym.st_size =
      text_offset + sym.st_value + sym.st_size :=
    wadd_eq (by omega)
  have hc1 : text_offset + sym.st_value ≤ text_offset + sym.st_value + sym.st_size :=
    Nat.le_add_right _ _
  have hc2 : text_offset + sym.st_value + sym.st_size - (text_offset + sym.st_value) =
      sym.st_size := by omega
  have hslice : sliceGet data (text_offset + sym.st_value)
      (text_offset + sym.st_value + sym.st_size) =
      some ((data.drop (text_offset + sym.st_value)).take sym.st_size) := by
    simp only [sliceGet, if_pos (And.intro hc1 hlen), hc2]
  refine ⟨?_, ?_, ?_⟩
  · simp only [processSym, if_neg hnf, hn, hwa1, hwa2, hslice]
  · rw [List.length_take, List.length_drop]
    omega
  · intro k hk
    rw [List.getElem?_take, if_pos hk, List.getElem?_drop]

/-- Witness for C3 at a concrete function symbol of value 1 and size 2 inside
a 4-byte buffer at section offset 0. -/
theorem c3_stencil_extraction_witness :
    symW3.st_bind = STB_GLOBAL ∧ symW3.st_type = STT_FUNC ∧
    strtabFoo symW3.st_name = some "foo" ∧
    0 + symW3.st_value + symW3.st_size ≤ ([10, 11, 12, 13] : List Nat).length ∧
    0 + symW3.st_value + symW3.st_size < U64 ∧
    processSym [10, 11, 12, 13] strtabFoo 0 0 symW3 ([], []) =
      .ok ([{ name := "foo", address := 1, size := 2,
              code := (([10, 11, 12, 13] : List Nat).drop (0 + symW3.st_value)).take symW3.st_size,
              relocs := [], holes := [] }], []) :=
  ⟨rfl, rfl, rfl, by decide, by decide,
    (c3_stencil_extraction [10, 11, 12, 13] strtabFoo 0 0 symW3 [] [] "foo"
      rfl rfl rfl (by decide) (by decide)).1⟩

/-! Trailing-jump elision: helper lemmas. -/

theorem slice_last5 (s : Stencil) (hwf : s.code.length = s.size) (hsz : 5 ≤ s.size) :
    sliceGet s.code (s.size - 5) s.size = some (s.code.drop (s.size - 5)) := by
  have hlen5 : (s.code.drop (s.size - 5)).length = 5 := by
    rw [List.length_drop, hwf]
    omega
  have hsub : s.size - (s.size - 5) = 5 := by omega
  have hcond : s.size - 5 ≤ s.size ∧ s.size ≤ s.code.length := ⟨by omega, by omega⟩
  simp only [sliceGet, if_pos hcond, hsub]
  rw [List.take_of_length_le (le_of_eq hlen5)]

theorem trim_fires (s : Stencil) (lr : Reloc) (hwf : s.code.length = s.size)
    (hsz : 5 ≤ s.size) (h64 : s.size < U64)
    (hlast : s.relocs.getLast? = some lr) (hofs : lr.offset = s.size - 4)
    (hname : lr.hole.name = "cnp_stencil_output")
    (hpat : s.code.drop (s.size - 5) = [0xe9, 0, 0, 0, 0]) :
    trimStencil s = some (trimmedOf s) := by
  have h4 : wsub64 s.size 4 = s.size - 4 := wsub64_eq (by omega) h64
  have h5 : wsub64 s.size 5 = s.size - 5 := wsub64_eq (by omega) h64
  simp only [trimStencil, hlast, h4, h5]
  rw [if_pos ⟨hofs, hname⟩]
  simp only [slice_last5 s hwf hsz]
  rw [if_pos hpat]
  simp [trimmedOf]

theorem trim_nofires (s : Stencil) (hwf : s.code.length = s.size)
    (hsz : 5 ≤ s.size) (h64 : s.size < U64) (hnc : ¬ trimCond s) :
    trimStencil s = some s := by
  have h4 : wsub64 s.size 4 = s.size - 4 := wsub64_eq (by omega) h64
  have h5 : wsub64 s.size 5 = s.size - 5 := wsub64_eq (by omega) h64
  cases hlast : s.relocs.getLast? with
  | none => simp [trimStencil, hlast]
  | some lr =>
    simp only [trimStencil, hlast, h4, h5]
    by_cases h12 : lr.offset = s.size - 4 ∧ lr.hole.name = "cnp_stencil_output"
    · rw [if_pos h12]
      simp only [slice_last5 s hwf hsz]
      by_cases hb : s.code.drop (s.size - 5) = [0xe9, 0, 0, 0, 0]
      · exact absurd ⟨lr, hlast, h12.1, h12.2, hb⟩ hnc
      · rw [if_neg hb]
    · rw [if_neg h12]

/-! Claim C4: exactness of trailing-jump elision. -/

/-- Claim C4: for a well-formed stencil (code length equal to the size field,
at least 5 bytes, size a u64 value), trailing-jump elision removes exactly the
final 5 code bytes and the last relocation if and only if the last relocation
sits at offset size - 4, references the hole named cnp_stencil_output, and the
last five code bytes are E9 00 00 00 00; when any of these conditions fails
the stencil is returned unchanged. -/
theorem c4_trailing_jump_exact (s : Stencil) (hwf : s.code.length = s.size)
    (hsz : 5 ≤ s.size) (h64 : s.size < U64) :
    ((trimStencil s = some (trimmedOf s)) ↔ trimCond s) ∧
    (¬ trimCond s → trimStencil s = some s) := by
  have hne : trimmedOf s ≠ s := by
    intro h
    have hc := congrArg Stencil.code h
    have hlen := congrArg List.length hc
    simp only [trimmedOf] at hlen
    rw [List.length_take, hwf] at hlen
    have h1 : (s.size - 5) ⊓ s.size ≤ s.size - 5 := Nat.min_le_left _ _
    omega
  refine ⟨⟨?_, ?_⟩, trim_nofires s hwf hsz h64⟩
  · intro heq
    by_contra hnc
    have hno := trim_nofires s hwf hsz h64 hnc
    rw [hno] at heq
    exact hne (Option.some.inj heq).symm
  · intro hc
    obtain ⟨lr, hlast, hofs, hname, hpat⟩ := hc
    exact trim_fires s lr hwf hsz h64 hlast hofs hname hpat

/-- Witness for C4 at a concrete firing stencil of size 5. -/
theorem c4_trailing_jump_exact_witness :
    exS4.code.length = exS4.size ∧ 5 ≤ exS4.size ∧ exS4.size < U64 ∧
    (((trimStencil exS4 = some (trimmedOf exS4)) ↔ trimCond exS4) ∧
      (¬ trimCond exS4 → trimStencil exS4 = some exS4)) :=
  ⟨rfl, by decide, by decide, c4_trailing_jump_exact exS4 rfl (by decide) (by decide)⟩

/-! Claim C10: frame effect of a firing trim. -/

/-- Claim C10: when trailing-jump elision fires on a well-formed stencil, only
the code (shortened by 5 bytes) and the relocation list (last element
removed) change; the name, address, size and holes fields are unchanged, and
afterwards the code length equals size - 5, no longer the size field. -/
theorem c10_trim_frame (s : Stencil) (lr : Reloc) (hwf : s.code.length = s.size)
    (hsz : 5 ≤ s.size) (h64 : s.size < U64)
    (hlast : s.relocs.getLast? = some lr) (hofs : lr.offset = s.size - 4)
    (hname : lr.hole.name = "cnp_stencil_output")
    (hpat : s.code.drop (s.size - 5) = [0xe9, 0, 0, 0, 0]) :
    trimStencil s = some { name := s.name, address := s.address, size := s.size,
                           code := s.code.take (s.size - 5),
                           relocs := s.relocs.dropLast, holes := s.holes } ∧
    (s.code.take (s.size - 5)).length = s.size - 5 ∧
    ¬ (s.code.take (s.size - 5)).length = s.size := by
  have hfire := trim_fires s lr hwf hsz h64 hlast hofs hname hpat
  have hlen : (s.code.take (s.size - 5)).length = s.size - 5 := by
    rw [List.length_take, hwf]
    exact Nat.min_eq_left (by omega)
  refine ⟨hfire, hlen, ?_⟩
  rw [hlen]
  omega

/-- Witness for C10 at a concrete firing stencil with nonempty name, address
and holes. -/
theorem c10_trim_frame_witness :
    sC10.code.length = sC10.size ∧ sC10.relocs.getLast? = some rOut ∧
    trimStencil sC10 = some { name := sC10.name, address := sC10.address, size := sC10.size,
                              code := sC10.code.take (sC10.size - 5),
                              relocs := sC10.relocs.dropLast, holes := sC10.holes } :=
  ⟨rfl, rfl,
    (c10_trim_frame sC10 rOut rfl (by decide) (by decide) rfl (by decide) rfl (by decide)).1⟩

/-! Claim C9: trailing-jump elision applied twice. -/

/-- Counterexample to C9 as stated: on a well-formed stencil of size 9 whose
last two relocations both sit at offset 5 = size - 4 and reference the
sentinel hole, one application of trim_trailing_jmp succeeds and removes the
trailing jump, but a second application panics on an out-of-range slice
(the check still reads code[size-5..size] although the code now has size - 5
bytes), so applying the transform twice does not produce the same result as
applying it once. -/
theorem c9_counterexample :
    trim_trailing_jmp [sC9] = some [sC9a] ∧
    trim_trailing_jmp [sC9a] = none ∧
    (trim_trailing_jmp [sC9]).bind trim_trailing_jmp ≠ trim_trailing_jmp [sC9] :=
  ⟨by decide, by decide, by decide⟩

theorem trimStencil_stable (s t : Stencil)
    (hx : (match s.relocs.dropLast.getLast? with
           | none => true
           | some r2 =>
             !(r2.offset == wsub64 s.size 4 && r2.hole.name == "cnp_stencil_output")) = true)
    (h : trimStencil s = some t) : trimStencil t = some t := by
  cases hlast : s.relocs.getLast? with
  | none =>
    simp only [trimStencil, hlast] at h
    obtain rfl := Option.some.inj h
    simp only [trimStencil, hlast]
  | some lr =>
    simp only [trimStencil, hlast] at h
    by_cases h12 : lr.offset = wsub64 s.size 4 ∧ lr.hole.name = "cnp_stencil_output"
    · rw [if_pos h12] at h
      cases hsl : sliceGet s.code (wsub64 s.size 5) s.size with
      | none =>
        simp only [hsl] at h
        exact Option.noConfusion h
      | some bytes =>
        simp only [hsl] at h
        by_cases hb : bytes = [0xe9, 0, 0, 0, 0]
        · rw [if_pos hb] at h
          obtain rfl := Option.some.inj h
          cases hl2 : s.relocs.dropLast.getLast? with
          | none =>
            simp only [trimStencil, hl2]
          | some r2 =>
            simp only [hl2] at hx
            have hx2 : ¬(r2.offset = wsub64 s.size 4 ∧ r2.hole.name = "cnp_stencil_output") := by
              rw [not_and_or]
              simpa using hx
            simp only [trimStencil, hl2]
            rw [if_neg hx2]
        · rw [if_neg hb] at h
          obtain rfl := Option.some.inj h
          simp only [trimStencil, hlast]
          rw [if_pos h12]
          simp only [hsl]
          rw [if_neg hb]
    · rw [if_neg h12] at h
      obtain rfl := Option.some.inj h
      simp only [trimStencil, hlast]
      rw [if_neg h12]

/-- Claim C9 amended: applying trailing-jump elision twice produces the same
stencils as applying it once, provided that in no stencil the second-to-last
relocation also sits at offset size - 4 referencing the sentinel hole (the
counterexample above shows that in that one case the second application
panics instead of leaving the stencils unchanged). -/
theorem c9_idempotent_amended :
    ∀ ss : List Stencil,
      ss.all (fun s =>
        match s.relocs.dropLast.getLast? with
        | none => true
        | some r2 =>
          !(r2.offset == wsub64 s.size 4 && r2.hole.name == "cnp_stencil_output")) = true →
      ∀ ts, trim_trailing_jmp ss = some ts → trim_trailing_jmp ts = some ts := by
  intro ss
  induction ss with
  | nil =>
    intro _ ts h
    simp only [trim_trailing_jmp] at h
    obtain rfl := Option.some.inj h
    rfl
  | cons s rest ih =>
    intro hx ts h
    rw [List.all_cons, Bool.and_eq_true] at hx
    simp only [trim_trailing_jmp] at h
    cases hts : trimStencil s with
    | none =>
      simp only [hts] at h
      exact Option.noConfusion h
    | some t =>
      simp only [hts] at h
      cases hrest : trim_trailing_jmp rest with
      | none =>
        simp only [hrest] at h
        exact Option.noConfusion h
      | some rest2 =>
        simp only [hrest] at h
        obtain rfl := Option.some.inj h
        have h1 := trimStencil_stable s t hx.1 hts
        have h2 := ih hx.2 rest2 hrest
        simp only [trim_trailing_jmp, h1, h2]

/-- Witness for the amended C9 at a concrete firing stencil with a single
relocation. -/
theorem c9_idempotent_amended_witness :
    ([exS4].all (fun s =>
      match s.relocs.dropLast.getLast? with
      | none => true
      | some r2 =>
        !(r2.offset == wsub64 s.size 4 && r2.hole.name == "cnp_stencil_output"))) = true ∧
    trim_trailing_jmp [exS4] = some [exS4t] ∧
    trim_trailing_jmp [exS4t] = some [exS4t] :=
  ⟨by decide, by decide, c9_idempotent_amended [exS4] (by decide) [exS4t] (by decide)⟩

/-! Hole-list population: helper lemmas. -/

theorem find?_isNone_map_index (hs : List Hole) (i : Nat) :
    ((hs.map (fun h => h.index)).find? (fun j => j == i)).isNone
      = (hs.find? (fun h => h.index == i)).isNone := by
  induction hs with
  | nil => rfl
  | cons a t ih =>
    simp only [List.map_cons, List.find?_cons]
    cases hpa : (a.index == i)
    · simpa [hpa] using ih
    · simp [hpa]

theorem addHoles_map_index (rs : List Reloc) :
    ∀ hs : List Hole,
      (addHoles hs rs).map (fun h => h.index) =
        hs.map (fun h => h.index) ++
          dedupAvoid (hs.map (fun h => h.index)) (rs.map (fun r => r.hole.index)) := by
  induction rs with
  | nil =>
    intro hs
    simp [addHoles, dedupAvoid]
  | cons r rs ih =>
    intro hs
    simp only [addHoles, List.map_cons, dedupAvoid]
    cases hc : (hs.find? (fun h => h.index == r.hole.index)).isNone with
    | true =>
      rw [if_pos rfl, if_pos ((find?_isNone_map_index hs r.hole.index).trans hc), ih]
      simp [List.map_append, List.append_assoc]
    | false =>
      rw [if_neg Bool.false_ne_true,
          if_neg (show ¬((hs.map (fun h => h.index)).find?
              (fun j => j == r.hole.index)).isNone = true by
            rw [(find?_isNone_map_index hs r.hole.index).trans hc]
            exact Bool.false_ne_true),
          ih]

theorem dedupAvoid_countP (i : Nat) :
    ∀ (l seen : List Nat),
      (dedupAvoid seen l).countP (fun j => j == i) =
        if ((seen.find? (fun j => j == i)).isNone && l.any (fun j => j == i)) = true
        then 1 else 0 := by
  intro l
  induction l with
  | nil =>
    intro seen
    simp [dedupAvoid]
  | cons a l ih =>
    intro seen
    simp only [dedupAvoid]
    cases hc : (seen.find? (fun j => j == a)).isNone with
    | false =>
      rw [if_neg Bool.false_ne_true, ih seen]
      by_cases hia : a = i
      · subst hia
        simp [hc, List.any_cons]
      · have hia' : (a == i) = false := by simpa using hia
        simp [List.any_cons, hia']
    | true =>
      rw [if_pos rfl, List.countP_cons, ih (seen ++ [a])]
      by_cases hia : a = i
      · subst hia
        have hfa : ((seen ++ [a]).find? (fun j => j == a)).isNone = false := by
          rw [find?_isNone_not_any]
          simp [List.any_append]
        simp [hfa, hc, List.any_cons]
      · have hia' : (a == i) = false := by simpa using hia
        have hfa : ((seen ++ [a]).find? (fun j => j == i)).isNone
            = (seen.find? (fun j => j == i)).isNone := by
          rw [find?_isNone_not_any, find?_isNone_not_any]
          simp [List.any_append, hia']
        simp [hfa, hc, List.any_cons, hia']

/-! Claim C5: deduplicated hole list in first-occurrence order. -/

/-- Claim C5: starting from the empty hole list read_elf leaves on every
stencil, hole-list population makes stencil.holes list each Hole identity
(distinguished by symbol-table index) referenced by stencil.relocs exactly
once, in the order of the identity's first occurrence in stencil.relocs: the
index sequence of the populated holes equals the first-occurrence
deduplication of the reloc-referenced index sequence, and each referenced
index is counted exactly once (an unreferenced index zero times). -/
theorem c5_hole_list (s : Stencil) (h0 : s.holes = []) :
    (populateStencil s).holes.map (fun h => h.index) =
      dedupFirstOcc (s.relocs.map (fun r => r.hole.index)) ∧
    (∀ i : Nat, (populateStencil s).holes.countP (fun h => h.index == i) =
      if ((s.relocs.map (fun r => r.hole.index)).any (fun j => j == i)) = true
      then 1 else 0) := by
  constructor
  · simp only [populateStencil, h0]
    rw [addHoles_map_index]
    simp [dedupFirstOcc]
  · intro i
    simp only [populateStencil, h0]
    have hmap : (addHoles [] s.relocs).countP (fun h => h.index == i)
        = ((addHoles [] s.relocs).map (fun h => h.index)).countP (fun j => j == i) := by
      rw [List.countP_map]
      rfl
    rw [hmap, addHoles_map_index]
    simp only [List.map_nil, List.nil_append]
    rw [dedupAvoid_countP]
    simp

/-- Witness for C5 at a concrete stencil whose relocs reference hole indices
7, 3, 7 in that order. -/
theorem c5_hole_list_witness :
    sC5.holes = [] ∧
    (populateStencil sC5).holes.map (fun h => h.index) =
      dedupFirstOcc (sC5.relocs.map (fun r => r.hole.index)) :=
  ⟨rfl, (c5_hole_list sC5 rfl).1⟩

/-! Claim C6: invariants of relocation mapping. -/

/-- Claim C6: when some stencil's range contains the record's target offset
and the referenced hole resolves, the relocation mapping step attaches exactly
one Reloc, to the first containing stencil; that Reloc's offset equals the
original target offset minus the stencil's address and lies below the
stencil's size, and its addend is the record's explicit addend or 0 when none
is carried; all other stencils are unchanged. -/
theorem c6_reloc_mapping (holes : List Hole) (rr : RelocRecord) (hole : Hole) :
    ∀ ss : List Stencil,
      ss.all (fun s => decide (s.address + s.size < U64)) = true →
      rr.r_offset < U64 →
      ss.any (fun s => containsOff s rr.r_offset) = true →
      holes.find? (fun h => h.index == rr.r_sym) = some hole →
      relocAttachedSpec holes rr ss hole := by
  intro ss
  induction ss with
  | nil =>
    intro _ _ hctn _
    simp at hctn
  | cons s rest ih =>
    intro h64 hoff hctn hfind
    rw [List.all_cons, Bool.and_eq_true] at h64
    unfold relocAttachedSpec
    cases hcs : containsOff s rr.r_offset with
    | true =>
      have hle : s.address ≤ rr.r_offset ∧ rr.r_offset < wadd s.address s.size := by
        simpa [containsOff] using hcs
      have hlt : s.address + s.size < U64 := by
        have := h64.1
        simpa using this
      have hwa : wadd s.address s.size = s.address + s.size := wadd_eq hlt
      have hsub : wsub64 rr.r_offset s.address = rr.r_offset - s.address :=
        wsub64_eq hle.1 hoff
      have hbound : rr.r_offset - s.address < s.size := by
        have h2 := hle.2
        rw [hwa] at h2
        omega
      refine ⟨0, s, by simp, hcs, ?_, ?_, hbound, ?_⟩
      · intro j t hj _
        omega
      · simp [pushReloc, hcs, hfind, hsub, List.set_cons_zero]
      · intro j hj
        cases j with
        | zero => exact absurd rfl hj
        | succ k => simp [List.set_cons_zero]
    | false =>
      have hctn' : rest.any (fun s => containsOff s rr.r_offset) = true := by
        rw [List.any_cons] at hctn
        simpa [hcs] using hctn
      have ihspec := ih h64.2 hoff hctn' hfind
      unfold relocAttachedSpec at ihspec
      obtain ⟨i, st, hget, hcont, hmin, hpush, hbound, hpres⟩ := ihspec
      refine ⟨i + 1, st, ?_, hcont, ?_, ?_, hbound, ?_⟩
      · simpa [List.getElem?_cons_succ] using hget
      · intro j t hj hgt
        cases j with
        | zero =>
          rw [List.getElem?_cons_zero] at hgt
          obtain rfl := Option.some.inj hgt
          exact hcs
        | succ k =>
          apply hmin k t (by omega)
          simpa [List.getElem?_cons_succ] using hgt
      · simp [pushReloc, hcs, hpush, List.set_cons_succ]
      · intro j hj
        cases j with
        | zero => simp [List.set_cons_succ]
        | succ k =>
          have hk := hpres k (by omega)
          simpa [List.set_cons_succ, List.getElem?_cons_succ] using hk

/-- Witness for C6 at a concrete record targeting offset 5 inside a single
stencil of range 0 to 8, referencing hole index 7 with addend -4. -/
theorem c6_reloc_mapping_witness :
    ([stW6].all (fun s => decide (s.address + s.size < U64))) = true ∧
    rrW6.r_offset < U64 ∧
    ([stW6].any (fun s => containsOff s rrW6.r_offset)) = true ∧
    ([hB].find? (fun h => h.index == rrW6.r_sym)) = some hB ∧
    relocAttachedSpec [hB] rrW6 [stW6] hB :=
  ⟨by decide, by decide, by decide, rfl,
    c6_reloc_mapping [hB] rrW6 hB [stW6] (by decide) (by decide) (by decide) rfl⟩

/-! Claim C1: unmapped relocations. -/

/-- Counterexample to C1 as stated: in exC1 the single relocation record
targets offset 100, which no extracted stencil's range contains (the only
stencil covers 0 to 4), yet read_elf succeeds with the relocation silently
dropped instead of failing with an UnmappedRelocation error. -/
theorem c1_counterexample :
    containsOff stFoo 100 = false ∧
    read_elf exC1 = .ok ([stFoo], []) ∧
    (read_elf exC1).isErr = false :=
  ⟨by decide, by decide, by decide⟩

/-- Claim C1 amended: a relocation record whose target offset is contained in
no stencil's range is silently skipped - the mapping step returns the
stencils unchanged and reports no error (the if-let of src/main.rs line 92
has no else branch). -/
theorem c1_amended_skip (holes : List Hole) (rr : RelocRecord) :
    ∀ ss : List Stencil,
      ss.all (fun s => !containsOff s rr.r_offset) = true →
      pushReloc holes rr ss = .ok ss := by
  intro ss
  induction ss with
  | nil =>
    intro _
    rfl
  | cons s rest ih =>
    intro h
    rw [List.all_cons, Bool.and_eq_true] at h
    have hcs : containsOff s rr.r_offset = false := by
      have := h.1
      simpa using this
    simp [pushReloc, hcs, ih h.2]

/-- Witness for the amended C1 at the concrete unmapped record of exC1. -/
theorem c1_amended_skip_witness :
    ([stFoo].all (fun s => !containsOff s rrC1.r_offset)) = true ∧
    pushReloc [] rrC1 [stFoo] = .ok [stFoo] :=
  ⟨by decide, c1_amended_skip [] rrC1 [stFoo] (by decide)⟩

/-! Claim C7: unresolved hole references. -/

/-- Counterexample to C7 as stated: in exC7 the single relocation record is
contained in the only stencil but references symbol index 5, and the symbol
pass registered no holes at all; read_elf aborts with a panic (the unchecked
unwrap of src/main.rs line 96), not with a reported UnresolvedHoleReference
error. -/
theorem c7_counterexample :
    processSyms exC7.data exC7.strtab exC7.text_offset 0 ([], []) exC7.syms =
      .ok ([stFoo], []) ∧
    read_elf exC7 = .panicked "unwrap on None" ∧
    (read_elf exC7).isErr = false :=
  ⟨by decide, by decide, by decide⟩

/-- Claim C7 amended: when a contained relocation record references a symbol
index matching no registered hole, the mapping aborts with a panic (an
unchecked unwrap), not with a reported error. -/
theorem c7_amended_panic (holes : List Hole) (rr : RelocRecord)
    (hf : holes.find? (fun h => h.index == rr.r_sym) = none) :
    ∀ ss : List Stencil,
      ss.any (fun s => containsOff s rr.r_offset) = true →
      pushReloc holes rr ss = .panicked "unwrap on None" := by
  intro ss
  induction ss with
  | nil =>
    intro hc
    simp at hc
  | cons s rest ih =>
    intro hc
    cases hcs : containsOff s rr.r_offset with
    | true => simp [pushReloc, hcs, hf]
    | false =>
      have hc' : rest.any (fun s => containsOff s rr.r_offset) = true := by
        rw [List.any_cons] at hc
        simpa [hcs] using hc
      simp [pushReloc, hcs, ih hc']

/-- Witness for the amended C7 at the concrete record of exC7 with an empty
hole registry. -/
theorem c7_amended_panic_witness :
    (([] : List Hole).find? (fun h => h.index == rrC7.r_sym)) = none ∧
    ([stFoo].any (fun s => containsOff s rrC7.r_offset)) = true ∧
    pushReloc [] rrC7 [stFoo] = .panicked "unwrap on None" :=
  ⟨rfl, by decide, c7_amended_panic [] rrC7 rfl [stFoo] (by decide)⟩

/-! Claim C8: out-of-range code ranges. -/

/-- Counterexample to C8 as stated: in exC8 the function symbol's code range
is 2 to 6 inside a 4-byte buffer; read_elf aborts with a panic from the slice
indexing of src/main.rs line 82, not with a reported OutOfRangeCode error. -/
theorem c8_counterexample :
    exC8.data.length = 4 ∧
    read_elf exC8 = .panicked "slice out of range" ∧
    (read_elf exC8).isErr = false :=
  ⟨by decide, by decide, by decide⟩

/-- Claim C8 amended: a global function symbol whose computed code byte range
exceeds the input buffer makes the symbol step abort with a panic (Rust index
out of range), not with a reported error. -/
theorem c8_amended_panic (data : List Nat) (strtab : Nat → Option String)
    (text_offset i : Nat) (sym : ElfSym) (acc : List Stencil × List Hole) (nm : String)
    (hb : sym.st_bind = STB_GLOBAL) (ht : sym.st_type = STT_FUNC)
    (hn : strtab sym.st_name = some nm)
    (h64 : text_offset + sym.st_value + sym.st_size < U64)
    (hoob : data.length < text_offset + sym.st_value + sym.st_size) :
    processSym data strtab text_offset i sym acc = .panicked "slice out of range" := by
  have hnf : ¬(sym.st_bind ≠ STB_GLOBAL ∨ sym.st_type ≠ STT_FUNC) := by
    simp [hb, ht]
  have hwa1 : wadd text_offset sym.st_value = text_offset + sym.st_value :=
    wadd_eq (by omega)
  have hwa2 : wadd (text_offset + sym.st_value) sym.st_size =
      text_offset + sym.st_value + sym.st_size :=
    wadd_eq (by omega)
  have hslice : sliceGet data (text_offset + sym.st_value)
      (text_offset + sym.st_value + sym.st_size) = none := by
    unfold sliceGet
    rw [if_neg]
    intro hcond
    omega
  simp only [processSym, if_neg hnf, hn, hwa1, hwa2, hslice]

/-- Witness for the amended C8 at the concrete symbol of exC8. -/
theorem c8_amended_panic_witness :
    symC8.st_bind = STB_GLOBAL ∧ symC8.st_type = STT_FUNC ∧
    strtabFoo symC8.st_name = some "foo" ∧
    ([10, 11, 12, 13] : List Nat).length < 0 + symC8.st_value + symC8.st_size ∧
    processSym [10, 11, 12, 13] strtabFoo 0 0 symC8 ([], []) =
      .panicked "slice out of range" :=
  ⟨rfl, rfl, rfl, by decide,
    c8_amended_panic [10, 11, 12, 13] strtabFoo 0 0 symC8 ([], []) "foo"
      rfl rfl rfl (by decide) (by decide)⟩
